import Mathlib

/-!
# Verification of `graphlab/schedulers/colored_scheduler.hpp`

Shallow embedding of the `colored_scheduler` class template and proofs about
its dispatch protocol.  Machine integers (`size_t`) are modelled as `Nat`
with an explicit `% 2 ^ 64` wherever the source performs arithmetic that can
overflow; pointers (the update-function reference) are modelled as opaque
`Nat` tokens with `0` standing for `NULL`.  The in/out parameter `ret_task`
of `get_next_task` is modelled by passing the incoming task value in and
returning its final value.  Reaching C++ undefined behaviour (the `% 0` and
`/ 0` on an empty `color_blocks`, or the `assert(false)` in `set_option`)
is modelled by returning `none`.
-/

namespace GraphLab

/-- The modulus `2 ^ 64` of `size_t` arithmetic on the target platform. -/
def USIZE : Nat := 2 ^ 64

/-- Model of `update_task_type`: a vertex id paired with the update-function pointer
(`update_task_type(vertex, update_function)` in the source). -/
structure Task where
  vertex : Nat
  fn : Nat
  deriving DecidableEq

/-- Model of `sched_status::status_enum`. -/
inductive Status where
  | NEWTASK
  | WAITING
  | COMPLETE
  deriving DecidableEq

/-- The mutable state of one `colored_scheduler` object.  The per-cpu
vectors `cpu_index`, `cpu_color`, `cpu_waiting` (all of length `ncpus` in
the source) are modelled as total functions read/written only at indices
`< ncpus`. -/
structure State where
  color_blocks : List (List Nat)
  ncpus : Nat
  cpu_index : Nat → Nat
  cpu_color : Nat → Nat
  cpu_waiting : Nat → Bool
  max_iterations : Nat
  update_function : Nat
  completed : Bool
  color : Nat
  waiting : Nat

/-- Point update of a function-modelled vector. -/
def fupd {α : Type} (f : Nat → α) (i : Nat) (v : α) : Nat → α :=
  fun j => if j = i then v else f j

/-- One iteration of the constructor loop:
`if(color >= color_blocks.size()) color_blocks.resize(color + 1);
color_blocks[color].push_back(i);` -/
def push_vertex (blocks : List (List Nat)) (c v : Nat) : List (List Nat) :=
  let bs := if blocks.length ≤ c
    then blocks ++ List.replicate (c + 1 - blocks.length) []
    else blocks
  bs.set c (bs.getD c [] ++ [v])

/-- The constructor loop over `i = 0 .. num_vertices - 1` bucketing vertex
`i` into `color_blocks[graph.color(i)]`. -/
def build_color_blocks (numV : Nat) (colorOf : Nat → Nat) : List (List Nat) :=
  (List.range numV).foldl (fun bs i => push_vertex bs (colorOf i) i) []

/-- The state set up by the constructor `colored_scheduler(engine, graph,
ncpus)`.  `size_t` vector entries are value-initialized to `0`,
`max_iterations(-1)` is the `size_t` value `2 ^ 64 - 1`, `update_function`
is `NULL` and `color.value = 0`.  The field `completed` is left
uninitialized by the constructor, so it is taken as a parameter here. -/
def initState (numV : Nat) (colorOf : Nat → Nat) (ncpus : Nat)
    (completed0 : Bool) : State where
  color_blocks := build_color_blocks numV colorOf
  ncpus := ncpus
  cpu_index := fun _ => 0
  cpu_color := fun _ => 0
  cpu_waiting := fun _ => false
  max_iterations := USIZE - 1
  update_function := 0
  completed := completed0
  color := 0
  waiting := 0

/-- The state produced by a successful `start()`: for every `i < ncpus`,
`cpu_index[i] = i`, `cpu_color[i] = color.value`, `cpu_waiting[i] = false`;
then `waiting.value = 0` and `completed = false`. -/
def startOf (s : State) : State :=
  { s with
    cpu_index := fun i => if i < s.ncpus then i else s.cpu_index i
    cpu_color := fun i => if i < s.ncpus then s.color else s.cpu_color i
    cpu_waiting := fun i => if i < s.ncpus then false else s.cpu_waiting i
    waiting := 0
    completed := false }

/-- Model of `start()`.  Here `assert(update_function != NULL)` aborts (modelled `none`)
when no update function was registered. -/
def start (s : State) : Option State :=
  if s.update_function = 0 then none else some (startOf s)

/-- Model of `stop()`: `completed = true;`. -/
def stop (s : State) : State :=
  { s with completed := true }

/-- Model of `abort()`: `completed = true;`. -/
def abort (s : State) : State :=
  { s with completed := true }

/-- Model of `add_task(task, priority)`: `update_function = task.function();`.
The priority is a `double` in the source and is never read. -/
def add_task (s : State) (task : Task) (_priority : Nat) : State :=
  { s with update_function := task.fn }

/-- Model of `add_tasks(vertices, func, priority)`: `update_function = func;`.
The vertex list and the priority are never read. -/
def add_tasks (s : State) (_vertices : List Nat) (func : Nat)
    (_priority : Nat) : State :=
  { s with update_function := func }

/-- Model of `add_task_to_all(func, priority)`: `update_function = func;`. -/
def add_task_to_all (s : State) (func : Nat) (_priority : Nat) : State :=
  { s with update_function := func }

/-- Model of `completed_task(cpuid, task)`: a no-op. -/
def completed_task (s : State) (_cpuid : Nat) (_task : Task) : State := s

/-- Model of `scheduler_options::options_enum`; members other than the two
recognized here are collapsed into `OTHER`. -/
inductive OptionsEnum where
  | UPDATE_FUNCTION
  | MAX_ITERATIONS
  | OTHER
  deriving DecidableEq

/-- Model of `set_option(opt, value)`.  The source reads
`if (opt == UPDATE_FUNCTION) { ... } if (opt == MAX_ITERATIONS) { ... }
else { assert(false); }`: the first `if` is NOT chained to the second
`if/else`, so an `UPDATE_FUNCTION` call stores the function and then falls
into the `else` of the second `if` and hits `assert(false)` (modelled
`none`).  Only `MAX_ITERATIONS` returns normally. -/
def setOption (s : State) (opt : OptionsEnum) (value : Nat) : Option State :=
  let s1 := if opt = OptionsEnum.UPDATE_FUNCTION
    then { s with update_function := value } else s
  if opt = OptionsEnum.MAX_ITERATIONS
    then some { s1 with max_iterations := value % USIZE }
    else none

/-- The waiting-branch reset in `get_next_task`:
`cpu_color[cpuid] = color.value; cpu_index[cpuid] = cpuid;
cpu_waiting[cpuid] = false;`. -/
def resetWorker (s : State) (cpuid : Nat) : State :=
  { s with
    cpu_color := fupd s.cpu_color cpuid s.color
    cpu_index := fupd s.cpu_index cpuid cpuid
    cpu_waiting := fupd s.cpu_waiting cpuid false }

/-- The active-branch stride in `get_next_task`:
`cpu_index[cpuid] += cpu_index.size();` (the vector has length `ncpus`). -/
def strideWorker (s : State) (cpuid : Nat) : State :=
  { s with
    cpu_index := fupd s.cpu_index cpuid
      ((s.cpu_index cpuid + s.ncpus) % USIZE) }

/-- The state after `waiting.inc(); cpu_waiting[cpuid] = true;`. -/
def enterWaiting (s : State) (cpuid : Nat) : State :=
  { s with
    waiting := (s.waiting + 1) % USIZE
    cpu_waiting := fupd s.cpu_waiting cpuid true }

/-- The epoch transition `waiting.value = 0; color.inc();` performed by
the call whose increment made the wait count reach `cpu_index.size()`. -/
def epochTransition (s : State) : State :=
  { s with waiting := 0, color := (s.color + 1) % USIZE }

/-- Lines 143-169 of `get_next_task`, entered after the per-worker cursor
has been updated.  When `color_blocks.size() = 0` the source evaluates
`cpu_color[cpuid] % 0` (and would evaluate `/ 0` on the next line), which
is undefined behaviour: modelled as `none`. -/
def dispatchPhase (s : State) (cpuid : Nat) (ret : Task) :
    Option (Status × State × Task) :=
  -- `current_color` is `cpu_color[cpuid] % color_blocks.size()` and the
  -- scanned block is `color_blocks[current_color]`, inlined below.
  if s.color_blocks.length = 0 then none
  else if s.max_iterations ≤ s.cpu_color cpuid / s.color_blocks.length then
    some (Status.COMPLETE, s, ret)
  else if s.cpu_index cpuid <
      (s.color_blocks.getD (s.cpu_color cpuid % s.color_blocks.length)
        []).length then
    some (Status.NEWTASK, s,
      { vertex := (s.color_blocks.getD
            (s.cpu_color cpuid % s.color_blocks.length) []).getD
            (s.cpu_index cpuid) 0
        fn := s.update_function })
  -- overran: `waiting.inc()` returned `(s.waiting + 1) % USIZE`, which is
  -- `(enterWaiting s cpuid).waiting`, compared against `cpu_index.size()`
  else if (s.waiting + 1) % USIZE = s.ncpus then
    some (Status.WAITING, epochTransition (enterWaiting s cpuid), ret)
  else
    some (Status.WAITING, enterWaiting s cpuid, ret)

/-- Model of `get_next_task(cpuid, ret_task)`.  The incoming value of the in/out
parameter `ret_task` is `ret`; the returned triple carries the status, the
scheduler state after the call and the final value of `ret_task`. -/
def get_next_task (s : State) (cpuid : Nat) (ret : Task) :
    Option (Status × State × Task) :=
  if s.completed then some (Status.COMPLETE, s, ret)
  else if s.cpu_waiting cpuid then
    if s.cpu_color cpuid = s.color then some (Status.WAITING, s, ret)
    else dispatchPhase (resetWorker s cpuid) cpuid ret
  else dispatchPhase (strideWorker s cpuid) cpuid ret

/-- The configured constructor state: `initState` after
`set_option(MAX_ITERATIONS, k)` and `add_task_to_all(f, p)` (see
`configState_pipeline`). -/
def configState (numV : Nat) (colorOf : Nat → Nat) (N k f : Nat) : State :=
  { initState numV colorOf N true with
    max_iterations := k % USIZE
    update_function := f }

/-- The state right after a successful `start()` on a scheduler configured
with `max_iterations = k` and update function `f`. -/
def startState (numV : Nat) (colorOf : Nat → Nat) (N k f : Nat) : State :=
  startOf (configState numV colorOf N k f)

/-- The state `configState` really is what the configuration pipeline
(`set_option(MAX_ITERATIONS, k)` then `add_task_to_all(f, p)`) yields. -/
theorem configState_pipeline (numV : Nat) (colorOf : Nat → Nat)
    (N k f p : Nat) :
    (setOption (initState numV colorOf N true)
        OptionsEnum.MAX_ITERATIONS k).map
      (fun s => add_task_to_all s f p) =
      some (configState numV colorOf N k f) := rfl

/-- Operation `start` succeeds on a configured state exactly when the registered
update function is not `NULL`. -/
theorem start_configState (numV : Nat) (colorOf : Nat → Nat) (N k f : Nat)
    (hf : f ≠ 0) :
    start (configState numV colorOf N k f) =
      some (startState numV colorOf N k f) := by
  simp [start, configState, startState, hf, initState]

/-- Single-threaded reachability: all states a scheduler can be driven to
from `s0` by the run-time operations (dispatch calls with a valid worker
id, `stop`, `abort`, `completed_task` and the task-registration calls). -/
inductive ReachFrom : State → State → Prop where
  | refl (s : State) : ReachFrom s s
  | next {s0 s s' : State} {st : Status} {t t' : Task} (w : Nat)
      (h : ReachFrom s0 s) (hw : w < s.ncpus)
      (hstep : get_next_task s w t = some (st, s', t')) : ReachFrom s0 s'
  | stop_step {s0 s : State} (h : ReachFrom s0 s) : ReachFrom s0 (stop s)
  | abort_step {s0 s : State} (h : ReachFrom s0 s) : ReachFrom s0 (abort s)
  | add_task_step {s0 s : State} (t : Task) (p : Nat)
      (h : ReachFrom s0 s) : ReachFrom s0 (add_task s t p)
  | add_tasks_step {s0 s : State} (vs : List Nat) (f p : Nat)
      (h : ReachFrom s0 s) : ReachFrom s0 (add_tasks s vs f p)
  | add_task_to_all_step {s0 s : State} (f p : Nat)
      (h : ReachFrom s0 s) : ReachFrom s0 (add_task_to_all s f p)

/-- States reachable during a run that was configured with `ncpus = N`,
`max_iterations = k`, update function `f` on a graph with `numV` vertices
colored by `colorOf`, starting from `start()`. -/
def Reachable (numV : Nat) (colorOf : Nat → Nat) (N k f : Nat)
    (s : State) : Prop :=
  ReachFrom (startState numV colorOf N k f) s

/-- Drive the scheduler through the calls of `trace` (a list of worker
ids), feeding a fresh dummy `ret_task` to each call and logging each
call's status and final `ret_task` value.  `none` if any call reaches
undefined behaviour. -/
def runTrace (s : State) (trace : List Nat) :
    Option (State × List (Status × Task)) :=
  match trace with
  | [] => some (s, [])
  | w :: rest =>
    match get_next_task s w { vertex := 0, fn := 0 } with
    | none => none
    | some (st, s', t') =>
      match runTrace s' rest with
      | none => none
      | some (s'', log) => some (s'', (st, t') :: log)

/-- The vertices handed out via `NEWTASK` in a `runTrace` log, in order. -/
def dispatched (log : List (Status × Task)) : List Nat :=
  log.filterMap
    (fun e => if e.1 = Status.NEWTASK then some e.2.vertex else none)

end GraphLab

namespace GraphLab

/-! ## Inversion lemmas for one dispatch call -/

/-- Case analysis of `dispatchPhase`: either the iteration budget is
exhausted (COMPLETE), or a vertex is handed out (NEWTASK), or the worker
overran its slice and parks (WAITING), possibly triggering the epoch
transition. -/
theorem dispatchPhase_cases {s : State} {w : Nat} {ret : Task}
    {st : Status} {s' : State} {t' : Task}
    (h : dispatchPhase s w ret = some (st, s', t')) :
    s.color_blocks.length ≠ 0 ∧
    ((st = Status.COMPLETE ∧ s' = s ∧ t' = ret ∧
        s.max_iterations ≤ s.cpu_color w / s.color_blocks.length) ∨
     (st = Status.NEWTASK ∧ s' = s ∧
        s.cpu_color w / s.color_blocks.length < s.max_iterations ∧
        s.cpu_index w <
          (s.color_blocks.getD (s.cpu_color w % s.color_blocks.length)
            []).length ∧
        t' = { vertex := (s.color_blocks.getD
                  (s.cpu_color w % s.color_blocks.length) []).getD
                  (s.cpu_index w) 0
               fn := s.update_function }) ∨
     (st = Status.WAITING ∧ t' = ret ∧
        s.cpu_color w / s.color_blocks.length < s.max_iterations ∧
        (s.color_blocks.getD (s.cpu_color w % s.color_blocks.length)
          []).length ≤ s.cpu_index w ∧
        (((s.waiting + 1) % USIZE = s.ncpus ∧
            s' = epochTransition (enterWaiting s w)) ∨
         ((s.waiting + 1) % USIZE ≠ s.ncpus ∧
            s' = enterWaiting s w)))) := by
  by_cases h0 : s.color_blocks.length = 0
  · rw [dispatchPhase, if_pos h0] at h
    exact absurd h (by simp)
  · rw [dispatchPhase, if_neg h0] at h
    refine ⟨h0, ?_⟩
    by_cases h1 : s.max_iterations ≤ s.cpu_color w / s.color_blocks.length
    · rw [if_pos h1] at h
      injection h with h
      simp only [Prod.mk.injEq] at h
      obtain ⟨rfl, rfl, rfl⟩ := h
      exact Or.inl ⟨rfl, rfl, rfl, h1⟩
    · rw [if_neg h1] at h
      by_cases h2 : s.cpu_index w <
          (s.color_blocks.getD (s.cpu_color w % s.color_blocks.length)
            []).length
      · rw [if_pos h2] at h
        injection h with h
        simp only [Prod.mk.injEq] at h
        obtain ⟨rfl, rfl, rfl⟩ := h
        exact Or.inr (Or.inl ⟨rfl, rfl, Nat.lt_of_not_le h1, h2, rfl⟩)
      · rw [if_neg h2] at h
        by_cases h3 : (s.waiting + 1) % USIZE = s.ncpus
        · rw [if_pos h3] at h
          injection h with h
          simp only [Prod.mk.injEq] at h
          obtain ⟨rfl, rfl, rfl⟩ := h
          exact Or.inr (Or.inr ⟨rfl, rfl, Nat.lt_of_not_le h1,
            Nat.le_of_not_lt h2, Or.inl ⟨h3, rfl⟩⟩)
        · rw [if_neg h3] at h
          injection h with h
          simp only [Prod.mk.injEq] at h
          obtain ⟨rfl, rfl, rfl⟩ := h
          exact Or.inr (Or.inr ⟨rfl, rfl, Nat.lt_of_not_le h1,
            Nat.le_of_not_lt h2, Or.inr ⟨h3, rfl⟩⟩)

/-- Case analysis of `get_next_task`: frozen after completion, parked with
an unchanged epoch, re-entering after an epoch change, or striding ahead
in the active path. -/
theorem get_next_task_cases {s : State} {w : Nat} {t : Task} {st : Status}
    {s' : State} {t' : Task}
    (h : get_next_task s w t = some (st, s', t')) :
    (s.completed = true ∧ st = Status.COMPLETE ∧ s' = s ∧ t' = t) ∨
    (s.completed = false ∧ s.cpu_waiting w = true ∧
      s.cpu_color w = s.color ∧ st = Status.WAITING ∧ s' = s ∧ t' = t) ∨
    (s.completed = false ∧ s.cpu_waiting w = true ∧
      s.cpu_color w ≠ s.color ∧
      dispatchPhase (resetWorker s w) w t = some (st, s', t')) ∨
    (s.completed = false ∧ s.cpu_waiting w = false ∧
      dispatchPhase (strideWorker s w) w t = some (st, s', t')) := by
  by_cases hc : s.completed
  · simp [get_next_task, hc] at h
    exact Or.inl ⟨hc, h.1.symm, h.2.1.symm, h.2.2.symm⟩
  · by_cases hwState : s.cpu_waiting w
    · by_cases hcol : s.cpu_color w = s.color
      · simp [get_next_task, hc, hwState, hcol] at h
        exact Or.inr (Or.inl ⟨Bool.not_eq_true _ ▸ by simp [hc],
          hwState, hcol, h.1.symm, h.2.1.symm, h.2.2.symm⟩)
      · simp only [get_next_task, hc, hwState, hcol, if_true, if_false,
          Bool.false_eq_true, ite_false, ite_true] at h
        exact Or.inr (Or.inr (Or.inl ⟨by simp [hc], hwState, hcol, h⟩))
    · simp only [get_next_task, hc, hwState, Bool.false_eq_true,
        ite_false, ite_true] at h
      exact Or.inr (Or.inr (Or.inr ⟨by simp [hc], by simp [hwState], h⟩))

end GraphLab

namespace GraphLab

/-! ## Structure of the constructor-built color partition -/

/-- Reading any position of a list of blocks yields a member block or the
default `[]`. -/
theorem getD_mem_or_nil (bs : List (List Nat)) (c : Nat) :
    bs.getD c [] ∈ bs ∨ bs.getD c [] = [] := by
  by_cases h : c < bs.length
  · exact Or.inl (List.getD_eq_getElem bs [] h ▸ List.getElem_mem h)
  · exact Or.inr (List.getD_eq_default bs [] (Nat.le_of_not_lt h))

/-- Membership after one `push_vertex` step: a block of the new partition
is an old block, a fresh empty block, or an old/fresh block with `v`
appended. -/
theorem push_vertex_mem {bs : List (List Nat)} {c v : Nat} {b : List Nat}
    (hb : b ∈ push_vertex bs c v) :
    b ∈ bs ∨ b = [] ∨
      ∃ b0, (b0 ∈ bs ∨ b0 = []) ∧ b = b0 ++ [v] := by
  simp only [push_vertex] at hb
  rcases List.mem_or_eq_of_mem_set hb with h | h
  · by_cases hc : bs.length ≤ c
    · simp only [if_pos hc] at h
      rcases List.mem_append.mp h with h | h
      · exact Or.inl h
      · exact Or.inr (Or.inl (List.eq_of_mem_replicate h))
    · simp only [if_neg hc] at h
      exact Or.inl h
  · by_cases hc : bs.length ≤ c
    · simp only [if_pos hc] at h
      refine Or.inr (Or.inr ⟨_, ?_, h⟩)
      rcases getD_mem_or_nil (bs ++ List.replicate (c + 1 - bs.length) []) c
        with h' | h'
      · rcases List.mem_append.mp h' with h'' | h''
        · exact Or.inl h''
        · exact Or.inr (List.eq_of_mem_replicate h'')
      · exact Or.inr h'
    · simp only [if_neg hc] at h
      refine Or.inr (Or.inr ⟨_, ?_, h⟩)
      exact getD_mem_or_nil bs c

/-- Every block built from the first `n` vertices is strictly increasing
and contains only vertex ids `< n`. -/
theorem build_color_blocks_sorted (n : Nat) (colorOf : Nat → Nat) :
    ∀ b ∈ build_color_blocks n colorOf,
      b.Pairwise (· < ·) ∧ ∀ x ∈ b, x < n := by
  induction n with
  | zero => intro b hb; simp [build_color_blocks] at hb
  | succ m ih =>
    intro b hb
    rw [build_color_blocks, List.range_succ, List.foldl_append,
      List.foldl_cons, List.foldl_nil] at hb
    rw [build_color_blocks] at ih
    rcases push_vertex_mem hb with h | h | ⟨b0, hb0, rfl⟩
    · obtain ⟨hp, hlt⟩ := ih b h
      exact ⟨hp, fun x hx => Nat.lt_succ_of_lt (hlt x hx)⟩
    · subst h; simp
    · have hb0' : b0.Pairwise (· < ·) ∧ ∀ x ∈ b0, x < m := by
        rcases hb0 with h' | rfl
        · exact ih b0 h'
        · simp
      constructor
      · rw [List.pairwise_append]
        exact ⟨hb0'.1, List.pairwise_singleton _ _,
          fun x hx y hy => by
            rw [List.mem_singleton] at hy; subst hy; exact hb0'.2 x hx⟩
      · intro x hx
        rcases List.mem_append.mp hx with h' | h'
        · exact Nat.lt_succ_of_lt (hb0'.2 x h')
        · rw [List.mem_singleton] at h'; omega

/-- Every block of the built partition has no duplicate vertex. -/
theorem build_color_blocks_nodup (n : Nat) (colorOf : Nat → Nat) :
    ∀ b ∈ build_color_blocks n colorOf, b.Nodup :=
  fun b hb => ((build_color_blocks_sorted n colorOf b hb).1).imp Nat.ne_of_lt

/-- Every block of the built partition has length at most the number of
vertices. -/
theorem build_color_blocks_length_le (n : Nat) (colorOf : Nat → Nat) :
    ∀ b ∈ build_color_blocks n colorOf, b.length ≤ n := by
  intro b hb
  obtain ⟨hp, hlt⟩ := build_color_blocks_sorted n colorOf b hb
  have hnd : b.Nodup := hp.imp Nat.ne_of_lt
  have hsub : b.toFinset ⊆ Finset.range n := by
    intro x hx
    rw [List.mem_toFinset] at hx
    exact Finset.mem_range.mpr (hlt x hx)
  calc b.length = b.toFinset.card := (List.toFinset_card_of_nodup hnd).symm
    _ ≤ (Finset.range n).card := Finset.card_le_card hsub
    _ = n := Finset.card_range n

/-- The `getD` version of `build_color_blocks_nodup`. -/
theorem build_color_blocks_getD_nodup (n : Nat) (colorOf : Nat → Nat)
    (c : Nat) : ((build_color_blocks n colorOf).getD c []).Nodup := by
  rcases getD_mem_or_nil (build_color_blocks n colorOf) c with h | h
  · exact build_color_blocks_nodup n colorOf _ h
  · rw [h]; exact List.nodup_nil

/-- The `getD` version of `build_color_blocks_length_le`. -/
theorem build_color_blocks_getD_length_le (n : Nat) (colorOf : Nat → Nat)
    (c : Nat) : ((build_color_blocks n colorOf).getD c []).length ≤ n := by
  rcases getD_mem_or_nil (build_color_blocks n colorOf) c with h | h
  · exact build_color_blocks_length_le n colorOf _ h
  · rw [h]; exact Nat.zero_le n

end GraphLab

namespace GraphLab

/-! ## The run-time invariant of the dispatch protocol -/

theorem USIZE_pos : 0 < USIZE := by norm_num [USIZE]

theorem two_le_USIZE : 2 ≤ USIZE := by norm_num [USIZE]

/-- A `size_t` epoch value is never fixed by `color.inc()`. -/
theorem color_ne_succ_mod {c : Nat} (hc : c < USIZE) :
    c ≠ (c + 1) % USIZE := by
  rcases Nat.lt_or_ge (c + 1) USIZE with h | h
  · rw [Nat.mod_eq_of_lt h]; omega
  · have h1 : c + 1 = USIZE := by omega
    rw [h1, Nat.mod_self]
    have h2 := two_le_USIZE
    omega

/-- The set of workers currently parked waiting on the current epoch. -/
def waitingSet (s : State) (N : Nat) : Finset Nat :=
  (Finset.range N).filter
    (fun x => s.cpu_waiting x = true ∧ s.cpu_color x = s.color)

theorem mem_waitingSet {s : State} {N x : Nat} :
    x ∈ waitingSet s N ↔
      x < N ∧ s.cpu_waiting x = true ∧ s.cpu_color x = s.color := by
  simp [waitingSet, Finset.mem_filter, Finset.mem_range, and_assoc]

theorem not_mem_waitingSet_of_not_waiting {s : State} {N w : Nat}
    (h : s.cpu_waiting w = false) : w ∉ waitingSet s N := by
  intro hmem
  rcases mem_waitingSet.mp hmem with ⟨_, h1, _⟩
  rw [h] at h1
  exact Bool.false_ne_true h1

theorem not_mem_waitingSet_of_stale {s : State} {N w : Nat}
    (h : s.cpu_color w ≠ s.color) : w ∉ waitingSet s N :=
  fun hmem => h (mem_waitingSet.mp hmem).2.2

theorem waitingSet_subset_erase {s : State} {N w : Nat}
    (hnot : w ∉ waitingSet s N) :
    waitingSet s N ⊆ (Finset.range N).erase w := by
  intro x hx
  rcases mem_waitingSet.mp hx with ⟨hxN, _, _⟩
  refine Finset.mem_erase.mpr ⟨?_, Finset.mem_range.mpr hxN⟩
  rintro rfl
  exact hnot hx

theorem waitingSet_card_le_pred {s : State} {N w : Nat} (hw : w < N)
    (hnot : w ∉ waitingSet s N) : (waitingSet s N).card ≤ N - 1 := by
  calc (waitingSet s N).card ≤ ((Finset.range N).erase w).card :=
        Finset.card_le_card (waitingSet_subset_erase hnot)
    _ = N - 1 := by
        rw [Finset.card_erase_of_mem (Finset.mem_range.mpr hw),
          Finset.card_range]

/-- When the wait count is one short of the worker count and the caller is
not parked, every other worker is parked on the current epoch. -/
theorem waitingSet_all_of_card {s : State} {N w : Nat} (hw : w < N)
    (hnot : w ∉ waitingSet s N)
    (hcard : (waitingSet s N).card = N - 1) :
    ∀ x, x < N → x ≠ w → x ∈ waitingSet s N := by
  have heq : (Finset.range N).erase w = waitingSet s N := by
    refine (Finset.eq_of_subset_of_card_le (waitingSet_subset_erase hnot)
      ?_).symm
    rw [Finset.card_erase_of_mem (Finset.mem_range.mpr hw),
      Finset.card_range, hcard]
  intro x hx hxw
  rw [← heq]
  exact Finset.mem_erase.mpr ⟨hxw, Finset.mem_range.mpr hx⟩

theorem waitingSet_resetWorker (s : State) (w N : Nat) :
    waitingSet (resetWorker s w) N = (waitingSet s N).erase w := by
  ext x
  by_cases hxw : x = w
  · subst hxw
    simp [mem_waitingSet, resetWorker, fupd, Finset.mem_erase]
  · simp [mem_waitingSet, resetWorker, fupd, hxw, Finset.mem_erase]

theorem waitingSet_strideWorker (s : State) (w N : Nat) :
    waitingSet (strideWorker s w) N = waitingSet s N := rfl

theorem waitingSet_enterWaiting {s : State} {w N : Nat} (hw : w < N)
    (hcc : s.cpu_color w = s.color) :
    waitingSet (enterWaiting s w) N = insert w (waitingSet s N) := by
  ext x
  by_cases hxw : x = w
  · subst hxw
    simp [mem_waitingSet, enterWaiting, fupd, hw, hcc]
  · simp [mem_waitingSet, enterWaiting, fupd, hxw]

/-- The inductive invariant of a configured run: the partition, worker
count and iteration bound are those of the configuration; the shared wait
counter counts exactly the workers parked on the current epoch; an
unparked worker's observed epoch is current; a parked worker's epoch is
within the iteration budget; and every cursor that is still scanning is
congruent to its worker id modulo the worker count and bounded. -/
structure Inv (numV : Nat) (colorOf : Nat → Nat) (N k : Nat)
    (s : State) : Prop where
  blocks_eq : s.color_blocks = build_color_blocks numV colorOf
  ncpus_eq : s.ncpus = N
  maxiter_eq : s.max_iterations = k % USIZE
  color_lt : s.color < USIZE
  wcount : s.waiting = (waitingSet s N).card
  active_current : ∀ x, x < N → s.cpu_waiting x = false →
    s.cpu_color x = s.color
  wait_budget : ∀ x, x < N → s.cpu_waiting x = true →
    s.cpu_color x / s.color_blocks.length < s.max_iterations
  idx_cong_wait : ∀ x, x < N → s.cpu_waiting x = true →
    s.cpu_index x % N = x
  idx_cong_active : ∀ x, x < N → s.cpu_waiting x = false →
    s.cpu_color x / s.color_blocks.length < s.max_iterations →
    s.cpu_index x % N = x ∧ s.cpu_index x < N + numV

/-- The invariant holds right after `start()`. -/
theorem Inv_startState (numV : Nat) (colorOf : Nat → Nat) (N k f : Nat) :
    Inv numV colorOf N k (startState numV colorOf N k f) := by
  have hws : waitingSet (startState numV colorOf N k f) N = ∅ := by
    refine Finset.eq_empty_iff_forall_not_mem.mpr (fun x hx => ?_)
    rcases mem_waitingSet.mp hx with ⟨hxN, h1, _⟩
    simp [startState, startOf, configState, initState, hxN] at h1
  refine ⟨rfl, rfl, rfl, USIZE_pos, ?_, ?_, ?_, ?_, ?_⟩
  · rw [hws]
    rfl
  · intro x hxN _
    simp [startState, startOf, configState, initState, hxN]
  · intro x hxN hx
    simp [startState, startOf, configState, initState, hxN] at hx
  · intro x hxN hx
    simp [startState, startOf, configState, initState, hxN] at hx
  · intro x hxN _ _
    simp only [startState, startOf, configState, initState]
    simp [hxN]
    exact ⟨Nat.mod_eq_of_lt hxN, by omega⟩

/-- The mid-call invariant, holding after the per-worker cursor update
(reset or stride) and before `dispatchPhase` is entered. -/
structure MidInv (numV : Nat) (colorOf : Nat → Nat) (N k w : Nat)
    (s1 : State) : Prop where
  blocks_eq : s1.color_blocks = build_color_blocks numV colorOf
  ncpus_eq : s1.ncpus = N
  maxiter_eq : s1.max_iterations = k % USIZE
  color_lt : s1.color < USIZE
  wcount : s1.waiting = (waitingSet s1 N).card
  caller_lt : w < N
  caller_active : s1.cpu_waiting w = false
  caller_current : s1.cpu_color w = s1.color
  caller_cong :
    s1.cpu_color w / s1.color_blocks.length < s1.max_iterations →
    s1.cpu_index w % N = w
  others_active_current : ∀ x, x < N → x ≠ w →
    s1.cpu_waiting x = false → s1.cpu_color x = s1.color
  others_wait_budget : ∀ x, x < N → x ≠ w → s1.cpu_waiting x = true →
    s1.cpu_color x / s1.color_blocks.length < s1.max_iterations
  others_idx_cong_wait : ∀ x, x < N → x ≠ w →
    s1.cpu_waiting x = true → s1.cpu_index x % N = x
  others_idx_cong_active : ∀ x, x < N → x ≠ w →
    s1.cpu_waiting x = false →
    s1.cpu_color x / s1.color_blocks.length < s1.max_iterations →
    s1.cpu_index x % N = x ∧ s1.cpu_index x < N + numV

end GraphLab

namespace GraphLab

theorem fupd_same {α : Type} (f : Nat → α) (i : Nat) (v : α) :
    fupd f i v i = v := by
  simp [fupd]

theorem fupd_other {α : Type} (f : Nat → α) (i j : Nat) (v : α)
    (h : j ≠ i) : fupd f i v j = f j := by
  simp [fupd, h]

/-- Re-entering after an epoch change establishes the mid-call invariant. -/
theorem MidInv_resetWorker {numV : Nat} {colorOf : Nat → Nat}
    {N k : Nat} {s : State} {w : Nat}
    (hInv : Inv numV colorOf N k s) (hw : w < N)
    (hcol : s.cpu_color w ≠ s.color) :
    MidInv numV colorOf N k w (resetWorker s w) := by
  have hwnot : w ∉ waitingSet s N := not_mem_waitingSet_of_stale hcol
  refine ⟨hInv.blocks_eq, hInv.ncpus_eq, hInv.maxiter_eq, hInv.color_lt,
    ?_, hw, ?_, ?_, ?_, ?_, ?_, ?_, ?_⟩
  · rw [waitingSet_resetWorker, Finset.erase_eq_of_not_mem hwnot]
    exact hInv.wcount
  · simp [resetWorker, fupd]
  · simp [resetWorker, fupd]
  · intro _
    show fupd s.cpu_index w w w % N = w
    simp [fupd, Nat.mod_eq_of_lt hw]
  · intro x hx hxw hxf
    simp only [resetWorker, fupd] at hxf ⊢
    rw [if_neg hxw] at hxf ⊢
    exact hInv.active_current x hx hxf
  · intro x hx hxw hxt
    simp only [resetWorker, fupd] at hxt ⊢
    rw [if_neg hxw] at hxt ⊢
    exact hInv.wait_budget x hx hxt
  · intro x hx hxw hxt
    simp only [resetWorker, fupd] at hxt ⊢
    rw [if_neg hxw] at hxt ⊢
    exact hInv.idx_cong_wait x hx hxt
  · intro x hx hxw hxf hxlt
    simp only [resetWorker, fupd] at hxf hxlt ⊢
    rw [if_neg hxw] at hxf hxlt ⊢
    exact hInv.idx_cong_active x hx hxf hxlt

/-- The active-path stride establishes the mid-call invariant. -/
theorem MidInv_strideWorker {numV : Nat} {colorOf : Nat → Nat}
    {N k : Nat} {s : State} {w : Nat}
    (HB : 2 * N + numV ≤ USIZE)
    (hInv : Inv numV colorOf N k s) (hw : w < N)
    (hwf : s.cpu_waiting w = false) :
    MidInv numV colorOf N k w (strideWorker s w) := by
  refine ⟨hInv.blocks_eq, hInv.ncpus_eq, hInv.maxiter_eq, hInv.color_lt,
    ?_, hw, hwf, hInv.active_current w hw hwf, ?_, ?_, ?_, ?_, ?_⟩
  · rw [waitingSet_strideWorker]
    exact hInv.wcount
  · intro hlt
    obtain ⟨hcong, hbound⟩ := hInv.idx_cong_active w hw hwf hlt
    show fupd s.cpu_index w ((s.cpu_index w + s.ncpus) % USIZE) w % N = w
    rw [hInv.ncpus_eq]
    have hnw : s.cpu_index w + N < USIZE := by omega
    rw [fupd_same, Nat.mod_eq_of_lt hnw, Nat.add_mod_right, hcong]
  · intro x hx hxw hxf
    exact hInv.active_current x hx hxf
  · intro x hx hxw hxt
    exact hInv.wait_budget x hx hxt
  · intro x hx hxw hxt
    show fupd s.cpu_index w ((s.cpu_index w + s.ncpus) % USIZE) x % N = x
    simp only [fupd, if_neg hxw]
    exact hInv.idx_cong_wait x hx hxt
  · intro x hx hxw hxf hxlt
    show fupd s.cpu_index w ((s.cpu_index w + s.ncpus) % USIZE) x % N = x ∧
      fupd s.cpu_index w ((s.cpu_index w + s.ncpus) % USIZE) x < N + numV
    simp only [fupd, if_neg hxw]
    exact hInv.idx_cong_active x hx hxf hxlt

end GraphLab

namespace GraphLab

theorem enterWaiting_cpu_waiting_same (s : State) (w : Nat) :
    (enterWaiting s w).cpu_waiting w = true := fupd_same _ _ _

theorem enterWaiting_cpu_waiting_other {s : State} {w x : Nat}
    (h : x ≠ w) : (enterWaiting s w).cpu_waiting x = s.cpu_waiting x :=
  fupd_other _ _ _ _ h

/-- Lemma: `dispatchPhase` preserves the invariant, from the mid-call invariant. -/
theorem Inv_dispatch {numV : Nat} {colorOf : Nat → Nat} {N k w : Nat}
    {s1 s' : State} {t t' : Task} {st : Status}
    (HB : 2 * N + numV ≤ USIZE)
    (hMid : MidInv numV colorOf N k w s1)
    (hd : dispatchPhase s1 w t = some (st, s', t')) :
    Inv numV colorOf N k s' := by
  have hw := hMid.caller_lt
  have hNpos : 0 < N := Nat.lt_of_le_of_lt (Nat.zero_le w) hw
  have hwnot : w ∉ waitingSet s1 N :=
    not_mem_waitingSet_of_not_waiting hMid.caller_active
  have hcardle : (waitingSet s1 N).card ≤ N - 1 :=
    waitingSet_card_le_pred hw hwnot
  have hUB : N < USIZE := by omega
  obtain ⟨hlen, hcase⟩ := dispatchPhase_cases hd
  rcases hcase with ⟨hst, rfl, hteq, hbud⟩ |
    ⟨hst, rfl, hbudlt, hidx, hteq⟩ |
    ⟨hst, hteq, hbudlt, hover, htr⟩
  · -- budget exhausted: COMPLETE, state unchanged
    refine ⟨hMid.blocks_eq, hMid.ncpus_eq, hMid.maxiter_eq, hMid.color_lt,
      hMid.wcount, ?_, ?_, ?_, ?_⟩
    · intro x hx hxf
      by_cases hxw : w = x
      · subst hxw; exact hMid.caller_current
      · exact hMid.others_active_current x hx (Ne.symm hxw) hxf
    · intro x hx hxt
      by_cases hxw : w = x
      · subst hxw
        exact absurd (hMid.caller_active.symm.trans hxt) (by simp)
      · exact hMid.others_wait_budget x hx (Ne.symm hxw) hxt
    · intro x hx hxt
      by_cases hxw : w = x
      · subst hxw
        exact absurd (hMid.caller_active.symm.trans hxt) (by simp)
      · exact hMid.others_idx_cong_wait x hx (Ne.symm hxw) hxt
    · intro x hx hxf hxlt
      by_cases hxw : w = x
      · subst hxw; exact absurd hxlt (by omega)
      · exact hMid.others_idx_cong_active x hx (Ne.symm hxw) hxf hxlt
  · -- a vertex is handed out: NEWTASK, state unchanged
    refine ⟨hMid.blocks_eq, hMid.ncpus_eq, hMid.maxiter_eq, hMid.color_lt,
      hMid.wcount, ?_, ?_, ?_, ?_⟩
    · intro x hx hxf
      by_cases hxw : w = x
      · subst hxw; exact hMid.caller_current
      · exact hMid.others_active_current x hx (Ne.symm hxw) hxf
    · intro x hx hxt
      by_cases hxw : w = x
      · subst hxw
        exact absurd (hMid.caller_active.symm.trans hxt) (by simp)
      · exact hMid.others_wait_budget x hx (Ne.symm hxw) hxt
    · intro x hx hxt
      by_cases hxw : w = x
      · subst hxw
        exact absurd (hMid.caller_active.symm.trans hxt) (by simp)
      · exact hMid.others_idx_cong_wait x hx (Ne.symm hxw) hxt
    · intro x hx hxf hxlt
      by_cases hxw : w = x
      · subst hxw
        rw [hMid.blocks_eq] at hidx
        refine ⟨hMid.caller_cong hbudlt, Nat.lt_of_lt_of_le hidx ?_⟩
        exact Nat.le_trans
          (build_color_blocks_getD_length_le numV colorOf _)
          (Nat.le_add_left numV N)
      · exact hMid.others_idx_cong_active x hx (Ne.symm hxw) hxf hxlt
  · -- the caller overran its slice: WAITING
    rcases htr with ⟨hcw, rfl⟩ | ⟨hcw, rfl⟩
    · -- this increment reached the worker count: epoch transition
      rw [hMid.ncpus_eq] at hcw
      have hmodno : (s1.waiting + 1) % USIZE = s1.waiting + 1 :=
        Nat.mod_eq_of_lt (by have := hMid.wcount; omega)
      have hcount : s1.waiting + 1 = N := by rw [hmodno] at hcw; exact hcw
      have hcard : (waitingSet s1 N).card = N - 1 := by
        have := hMid.wcount; omega
      have hall := waitingSet_all_of_card hw hwnot hcard
      have hallwait : ∀ x, x < N →
          (enterWaiting s1 w).cpu_waiting x = true := by
        intro x hx
        by_cases hxw : w = x
        · subst hxw; exact enterWaiting_cpu_waiting_same s1 w
        · rw [enterWaiting_cpu_waiting_other (Ne.symm hxw)]
          exact (mem_waitingSet.mp (hall x hx (Ne.symm hxw))).2.1
      have hallcur : ∀ x, x < N → s1.cpu_color x = s1.color := by
        intro x hx
        by_cases hxw : w = x
        · subst hxw; exact hMid.caller_current
        · exact (mem_waitingSet.mp (hall x hx (Ne.symm hxw))).2.2
      have hne : s1.color ≠ (s1.color + 1) % USIZE :=
        color_ne_succ_mod hMid.color_lt
      refine ⟨hMid.blocks_eq, hMid.ncpus_eq, hMid.maxiter_eq, ?_, ?_, ?_,
        ?_, ?_, ?_⟩
      · exact Nat.mod_lt _ USIZE_pos
      · have hempty :
            waitingSet (epochTransition (enterWaiting s1 w)) N = ∅ := by
          refine Finset.eq_empty_iff_forall_not_mem.mpr (fun x hx => ?_)
          rcases mem_waitingSet.mp hx with ⟨hxN, _, hxc⟩
          exact hne ((hallcur x hxN).symm.trans hxc)
        rw [hempty]
        rfl
      · intro x hx hxf
        exact absurd ((hallwait x hx).symm.trans hxf) (by simp)
      · intro x hx _
        show s1.cpu_color x / s1.color_blocks.length < s1.max_iterations
        rw [hallcur x hx]
        have h := hbudlt
        rw [hMid.caller_current] at h
        exact h
      · intro x hx _
        show s1.cpu_index x % N = x
        by_cases hxw : w = x
        · subst hxw; exact hMid.caller_cong hbudlt
        · exact hMid.others_idx_cong_wait x hx (Ne.symm hxw)
            (mem_waitingSet.mp (hall x hx (Ne.symm hxw))).2.1
      · intro x hx hxf _
        exact absurd ((hallwait x hx).symm.trans hxf) (by simp)
    · -- not the last waiter: the counter only advances
      have hmodno : (s1.waiting + 1) % USIZE = s1.waiting + 1 :=
        Nat.mod_eq_of_lt (by have := hMid.wcount; omega)
      have hWS : waitingSet (enterWaiting s1 w) N =
          insert w (waitingSet s1 N) :=
        waitingSet_enterWaiting hw hMid.caller_current
      refine ⟨hMid.blocks_eq, hMid.ncpus_eq, hMid.maxiter_eq,
        hMid.color_lt, ?_, ?_, ?_, ?_, ?_⟩
      · show (s1.waiting + 1) % USIZE =
          (waitingSet (enterWaiting s1 w) N).card
        rw [hmodno, hWS, Finset.card_insert_of_not_mem hwnot, hMid.wcount]
      · intro x hx hxf
        by_cases hxw : w = x
        · subst hxw
          exact absurd
            ((enterWaiting_cpu_waiting_same s1 w).symm.trans hxf) (by simp)
        · have hxf' : s1.cpu_waiting x = false := by
            rw [← enterWaiting_cpu_waiting_other (Ne.symm hxw)]; exact hxf
          exact hMid.others_active_current x hx (Ne.symm hxw) hxf'
      · intro x hx hxt
        show s1.cpu_color x / s1.color_blocks.length < s1.max_iterations
        by_cases hxw : w = x
        · subst hxw; exact hbudlt
        · have hxt' : s1.cpu_waiting x = true := by
            rw [← enterWaiting_cpu_waiting_other (Ne.symm hxw)]; exact hxt
          exact hMid.others_wait_budget x hx (Ne.symm hxw) hxt'
      · intro x hx hxt
        show s1.cpu_index x % N = x
        by_cases hxw : w = x
        · subst hxw; exact hMid.caller_cong hbudlt
        · have hxt' : s1.cpu_waiting x = true := by
            rw [← enterWaiting_cpu_waiting_other (Ne.symm hxw)]; exact hxt
          exact hMid.others_idx_cong_wait x hx (Ne.symm hxw) hxt'
      · intro x hx hxf hxlt
        by_cases hxw : w = x
        · subst hxw
          exact absurd
            ((enterWaiting_cpu_waiting_same s1 w).symm.trans hxf) (by simp)
        · have hxf' : s1.cpu_waiting x = false := by
            rw [← enterWaiting_cpu_waiting_other (Ne.symm hxw)]; exact hxf
          exact hMid.others_idx_cong_active x hx (Ne.symm hxw) hxf' hxlt

end GraphLab

namespace GraphLab

/-- One `get_next_task` call preserves the invariant. -/
theorem Inv_step {numV : Nat} {colorOf : Nat → Nat} {N k : Nat}
    {s s' : State} {w : Nat} {t t' : Task} {st : Status}
    (HB : 2 * N + numV ≤ USIZE)
    (hInv : Inv numV colorOf N k s) (hw : w < N)
    (hstep : get_next_task s w t = some (st, s', t')) :
    Inv numV colorOf N k s' := by
  rcases get_next_task_cases hstep with
    ⟨_, _, rfl, _⟩ | ⟨_, _, _, _, rfl, _⟩ |
    ⟨_, hwt, hcol, hd⟩ | ⟨_, hwf, hd⟩
  · exact hInv
  · exact hInv
  · exact Inv_dispatch HB (MidInv_resetWorker hInv hw hcol) hd
  · exact Inv_dispatch HB (MidInv_strideWorker HB hInv hw hwf) hd

/-- Lemma: `stop` preserves the invariant. -/
theorem Inv_stop {numV : Nat} {colorOf : Nat → Nat} {N k : Nat}
    {s : State} (h : Inv numV colorOf N k s) :
    Inv numV colorOf N k (stop s) :=
  ⟨h.blocks_eq, h.ncpus_eq, h.maxiter_eq, h.color_lt, h.wcount,
    h.active_current, h.wait_budget, h.idx_cong_wait, h.idx_cong_active⟩

/-- Lemma: `abort` preserves the invariant. -/
theorem Inv_abort {numV : Nat} {colorOf : Nat → Nat} {N k : Nat}
    {s : State} (h : Inv numV colorOf N k s) :
    Inv numV colorOf N k (abort s) :=
  ⟨h.blocks_eq, h.ncpus_eq, h.maxiter_eq, h.color_lt, h.wcount,
    h.active_current, h.wait_budget, h.idx_cong_wait, h.idx_cong_active⟩

/-- Lemma: `add_task` preserves the invariant. -/
theorem Inv_add_task {numV : Nat} {colorOf : Nat → Nat} {N k : Nat}
    {s : State} (h : Inv numV colorOf N k s) (t : Task) (p : Nat) :
    Inv numV colorOf N k (add_task s t p) :=
  ⟨h.blocks_eq, h.ncpus_eq, h.maxiter_eq, h.color_lt, h.wcount,
    h.active_current, h.wait_budget, h.idx_cong_wait, h.idx_cong_active⟩

/-- Lemma: `add_tasks` preserves the invariant. -/
theorem Inv_add_tasks {numV : Nat} {colorOf : Nat → Nat} {N k : Nat}
    {s : State} (h : Inv numV colorOf N k s) (vs : List Nat) (f p : Nat) :
    Inv numV colorOf N k (add_tasks s vs f p) :=
  ⟨h.blocks_eq, h.ncpus_eq, h.maxiter_eq, h.color_lt, h.wcount,
    h.active_current, h.wait_budget, h.idx_cong_wait, h.idx_cong_active⟩

/-- Lemma: `add_task_to_all` preserves the invariant. -/
theorem Inv_add_task_to_all {numV : Nat} {colorOf : Nat → Nat}
    {N k : Nat} {s : State} (h : Inv numV colorOf N k s) (f p : Nat) :
    Inv numV colorOf N k (add_task_to_all s f p) :=
  ⟨h.blocks_eq, h.ncpus_eq, h.maxiter_eq, h.color_lt, h.wcount,
    h.active_current, h.wait_budget, h.idx_cong_wait, h.idx_cong_active⟩

/-- The invariant propagates along any single-threaded run. -/
theorem ReachFrom_inv {numV : Nat} {colorOf : Nat → Nat} {N k : Nat}
    {s0 s : State} (HB : 2 * N + numV ≤ USIZE)
    (h0 : Inv numV colorOf N k s0) (h : ReachFrom s0 s) :
    Inv numV colorOf N k s := by
  induction h with
  | refl => exact h0
  | next w h hw hstep ih => exact Inv_step HB ih (ih.ncpus_eq ▸ hw) hstep
  | stop_step h ih => exact Inv_stop ih
  | abort_step h ih => exact Inv_abort ih
  | add_task_step t p h ih => exact Inv_add_task ih t p
  | add_tasks_step vs f p h ih => exact Inv_add_tasks ih vs f p
  | add_task_to_all_step f p h ih => exact Inv_add_task_to_all ih f p

/-- Every state of a configured run satisfies the invariant. -/
theorem Reachable_inv {numV : Nat} {colorOf : Nat → Nat} {N k f : Nat}
    {s : State} (HB : 2 * N + numV ≤ USIZE)
    (h : Reachable numV colorOf N k f s) :
    Inv numV colorOf N k s :=
  ReachFrom_inv HB (Inv_startState numV colorOf N k f) h

end GraphLab

namespace GraphLab

/-! ## Claim theorems -/

/-- C9: `stop()` and `abort()` are the same state transformer: both mark
the run complete and change nothing else. -/
theorem stop_eq_abort (s : State) : stop s = abort s := rfl

/-- C8: each registration operation only overwrites the single global
update-function reference; the vertex subset and priority arguments of
`add_tasks` have no effect on the resulting state, and a later
registration replaces the function stored by an earlier one. -/
theorem registration_overwrites_only (s : State) (tk : Task)
    (vs vs2 : List Nat) (f g p p2 q : Nat) :
    add_task s tk q = { s with update_function := tk.fn } ∧
    add_tasks s vs f p = { s with update_function := f } ∧
    add_task_to_all s f p = { s with update_function := f } ∧
    add_tasks s vs f p = add_tasks s vs2 f p2 ∧
    add_tasks (add_task s tk q) vs g p2 = { s with update_function := g } :=
  ⟨rfl, rfl, rfl, rfl, rfl⟩

/-- C10: whenever `get_next_task` returns WAITING or COMPLETE, the in/out
parameter `ret_task` keeps its incoming value; it is assigned only on the
NEWTASK branch. -/
theorem get_next_task_frame (s : State) (w : Nat) (ret : Task)
    (st : Status) (s' : State) (t' : Task)
    (h : get_next_task s w ret = some (st, s', t'))
    (hn : st ≠ Status.NEWTASK) : t' = ret := by
  rcases get_next_task_cases h with ⟨_, _, _, rfl⟩ |
    ⟨_, _, _, _, _, rfl⟩ | ⟨_, _, _, hd⟩ | ⟨_, _, hd⟩
  · rfl
  · rfl
  all_goals
    obtain ⟨_, hcase⟩ := dispatchPhase_cases hd
  all_goals
    rcases hcase with ⟨_, _, rfl, _⟩ | ⟨hst, _, _, _, _⟩ | ⟨_, rfl, _, _, _⟩
  · rfl
  · exact absurd hst hn
  · rfl
  · rfl
  · exact absurd hst hn
  · rfl

/-- Witness for C10: from a completed scheduler the call returns COMPLETE
and hands back the caller's task object unchanged. -/
theorem get_next_task_frame_witness :
    ({ vertex := 5, fn := 7 } : Task) = { vertex := 5, fn := 7 } :=
  get_next_task_frame (abort (startState 1 (fun _ => 0) 1 1 1)) 0
    { vertex := 5, fn := 7 } Status.COMPLETE
    (abort (startState 1 (fun _ => 0) 1 1 1)) { vertex := 5, fn := 7 }
    rfl (by decide)

/-- C4 (code bug): `set_option` with the recognized option
`UPDATE_FUNCTION` stores the function and then falls into the `else` of
the second, unchained `if` and fires `assert(false)` (`none`); only
`MAX_ITERATIONS` succeeds, and unrecognized options fail as specified. -/
theorem setOption_characterization :
    (∀ (s : State) (v : Nat),
      setOption s OptionsEnum.UPDATE_FUNCTION v = none) ∧
    (∀ (s : State) (v : Nat),
      setOption s OptionsEnum.MAX_ITERATIONS v =
        some { s with max_iterations := v % USIZE }) ∧
    (∀ (s : State) (v : Nat), setOption s OptionsEnum.OTHER v = none) :=
  ⟨fun _ _ => rfl, fun _ _ => rfl, fun _ _ => rfl⟩

/-- C3 (code bug): on an empty graph the partition has zero color
classes, and the very first dispatch call after `start()` evaluates
`cpu_color[cpuid] % color_blocks.size()` with size `0` — undefined
behaviour (modelled `none`) instead of the required COMPLETE. -/
theorem get_next_task_empty_partition_ub :
    (startState 0 (fun _ => 0) 1 1 1).color_blocks = [] ∧
    (startState 0 (fun _ => 0) 1 1 1).completed = false ∧
    get_next_task (startState 0 (fun _ => 0) 1 1 1) 0
      { vertex := 0, fn := 0 } = none :=
  ⟨rfl, rfl, rfl⟩

/-- The completion flag, once set, survives every scheduler operation. -/
theorem ReachFrom_completed {s0 s : State} (h0 : s0.completed = true)
    (h : ReachFrom s0 s) : s.completed = true := by
  induction h with
  | refl => exact h0
  | next w h hw hstep ih =>
    rcases get_next_task_cases hstep with ⟨_, _, rfl, _⟩ |
      ⟨hc, _, _, _, rfl, _⟩ | ⟨hc, _, _, _⟩ | ⟨hc, _, _⟩
    · exact ih
    · exact ih
    · rw [ih] at hc; exact absurd hc (by simp)
    · rw [ih] at hc; exact absurd hc (by simp)
  | stop_step h ih => rfl
  | abort_step h ih => rfl
  | add_task_step t p h ih => exact ih
  | add_tasks_step vs f p h ih => exact ih
  | add_task_to_all_step f p h ih => exact ih

/-- C6: after `abort()`, in every subsequently reachable state, every
`get_next_task` call from every worker returns COMPLETE and leaves the
state and the task parameter untouched. -/
theorem abort_absorbing (s s2 : State) (h : ReachFrom (abort s) s2)
    (w : Nat) (t : Task) :
    get_next_task s2 w t = some (Status.COMPLETE, s2, t) := by
  have hc : s2.completed = true := ReachFrom_completed rfl h
  rw [get_next_task, if_pos hc]

/-- Witness for C6: aborting right after `start()` makes the next call
of worker 1 return COMPLETE. -/
theorem abort_absorbing_witness :
    get_next_task (abort (startState 2 (fun _ => 0) 2 1 1)) 1
      { vertex := 0, fn := 0 } =
      some (Status.COMPLETE, abort (startState 2 (fun _ => 0) 2 1 1),
        { vertex := 0, fn := 0 }) :=
  abort_absorbing (startState 2 (fun _ => 0) 2 1 1)
    (abort (startState 2 (fun _ => 0) 2 1 1)) (ReachFrom.refl _) 1
    { vertex := 0, fn := 0 }

/-- C1 (code bug): in the spec's own scenario (4 vertices colored
`[0,0,1,1]`, 2 workers, `max_iterations = 1`), the first epoch after
`start()` dispatches no vertex at all — the first call of each worker
strides its cursor past its seed offset before the bounds check, so the
epoch advances from class 0 with nothing dispatched, and the whole run
hands out only the vertices `[2, 3]` of class 1 instead of all of
`[0, 1, 2, 3]`. -/
theorem first_epoch_skips_vertices :
    (startState 4 (fun v => v / 2) 2 1 1).color_blocks.getD 0 [] =
      [0, 1] ∧
    (runTrace (startState 4 (fun v => v / 2) 2 1 1) [0, 1]).map
      (fun p => (p.1.color, dispatched p.2)) = some (1, []) ∧
    (runTrace (startState 4 (fun v => v / 2) 2 1 1)
        [0, 1, 0, 1, 0, 1, 0, 1]).map (fun p => dispatched p.2) =
      some [2, 3] :=
  ⟨rfl, rfl, rfl⟩

end GraphLab

namespace GraphLab

/-- C2: in the single-threaded simulation, the shared wait counter always
equals the number of workers parked on the current epoch; the epoch
advances exactly at the call whose increment makes that counter reach the
worker count `N`, that same call resets the counter to zero and parks its
worker, and no call advances the epoch before the count reaches `N`. -/
theorem epoch_transition_exactly_once {numV : Nat} {colorOf : Nat → Nat}
    {N k f : Nat} {s s' : State} {w : Nat} {t t' : Task} {st : Status}
    (HB : 2 * N + numV ≤ USIZE)
    (hs : Reachable numV colorOf N k f s) (hw : w < N)
    (hstep : get_next_task s w t = some (st, s', t')) :
    s.waiting = (waitingSet s N).card ∧
    (s'.color ≠ s.color →
      s.waiting + 1 = N ∧ s'.waiting = 0 ∧
      s'.color = (s.color + 1) % USIZE ∧ s'.cpu_waiting w = true) ∧
    (s.waiting + 1 ≠ N → s'.color = s.color) := by
  have hInv := Reachable_inv HB hs
  have hNpos : 0 < N := Nat.lt_of_le_of_lt (Nat.zero_le w) hw
  have hUB : N < USIZE := by omega
  refine ⟨hInv.wcount, ?_⟩
  rcases get_next_task_cases hstep with ⟨_, _, rfl, _⟩ |
    ⟨_, _, _, _, rfl, _⟩ | ⟨_, hwt, hcol, hd⟩ | ⟨_, hwf, hd⟩
  · exact ⟨fun hne => absurd rfl hne, fun _ => rfl⟩
  · exact ⟨fun hne => absurd rfl hne, fun _ => rfl⟩
  · -- re-entry path
    have hwnot : w ∉ waitingSet s N := not_mem_waitingSet_of_stale hcol
    have hcardle := waitingSet_card_le_pred hw hwnot
    obtain ⟨hlen, hcase⟩ := dispatchPhase_cases hd
    rcases hcase with ⟨_, rfl, _, _⟩ | ⟨_, rfl, _, _, _⟩ |
      ⟨_, _, _, _, ⟨hcw, rfl⟩ | ⟨hcw, rfl⟩⟩
    · exact ⟨fun hne => absurd rfl hne, fun _ => rfl⟩
    · exact ⟨fun hne => absurd rfl hne, fun _ => rfl⟩
    · have hcw' : (s.waiting + 1) % USIZE = N := by
        rw [← hInv.ncpus_eq]; exact hcw
      have hlt : s.waiting + 1 < USIZE := by
        have := hInv.wcount; omega
      have hcount : s.waiting + 1 = N := by
        rw [Nat.mod_eq_of_lt hlt] at hcw'; exact hcw'
      exact ⟨fun _ => ⟨hcount, rfl, rfl, fupd_same _ _ _⟩,
        fun hn => absurd hcount hn⟩
    · exact ⟨fun hne => absurd rfl hne, fun _ => rfl⟩
  · -- active path
    have hwnot : w ∉ waitingSet s N := not_mem_waitingSet_of_not_waiting hwf
    have hcardle := waitingSet_card_le_pred hw hwnot
    obtain ⟨hlen, hcase⟩ := dispatchPhase_cases hd
    rcases hcase with ⟨_, rfl, _, _⟩ | ⟨_, rfl, _, _, _⟩ |
      ⟨_, _, _, _, ⟨hcw, rfl⟩ | ⟨hcw, rfl⟩⟩
    · exact ⟨fun hne => absurd rfl hne, fun _ => rfl⟩
    · exact ⟨fun hne => absurd rfl hne, fun _ => rfl⟩
    · have hcw' : (s.waiting + 1) % USIZE = N := by
        rw [← hInv.ncpus_eq]; exact hcw
      have hlt : s.waiting + 1 < USIZE := by
        have := hInv.wcount; omega
      have hcount : s.waiting + 1 = N := by
        rw [Nat.mod_eq_of_lt hlt] at hcw'; exact hcw'
      exact ⟨fun _ => ⟨hcount, rfl, rfl, fupd_same _ _ _⟩,
        fun hn => absurd hcount hn⟩
    · exact ⟨fun hne => absurd rfl hne, fun _ => rfl⟩

/-- Witness for C2: one worker, one vertex — the first call overruns,
its increment reaches the worker count 1, and the epoch advances with
the wait counter reset to zero. -/
theorem epoch_transition_exactly_once_witness :
    (startState 1 (fun _ => 0) 1 1 1).waiting + 1 = 1 ∧
    (epochTransition (enterWaiting
      (strideWorker (startState 1 (fun _ => 0) 1 1 1) 0) 0)).waiting = 0 ∧
    (epochTransition (enterWaiting
        (strideWorker (startState 1 (fun _ => 0) 1 1 1) 0) 0)).color =
      ((startState 1 (fun _ => 0) 1 1 1).color + 1) % USIZE := by
  have h := @epoch_transition_exactly_once 1 (fun _ => 0) 1 1 1
    (startState 1 (fun _ => 0) 1 1 1)
    (epochTransition (enterWaiting
      (strideWorker (startState 1 (fun _ => 0) 1 1 1) 0) 0))
    0 { vertex := 0, fn := 0 } { vertex := 0, fn := 0 } Status.WAITING
    (by norm_num [USIZE]) (ReachFrom.refl _) (by norm_num) rfl
  have hne : (epochTransition (enterWaiting
      (strideWorker (startState 1 (fun _ => 0) 1 1 1) 0) 0)).color ≠
      (startState 1 (fun _ => 0) 1 1 1).color := by decide
  obtain ⟨hc1, hc2, hc3, _⟩ := h.2.1 hne
  exact ⟨hc1, hc2, hc3⟩

end GraphLab

namespace GraphLab

/-- C7: with the iteration bound `k` configured, a call never hands out
NEW_TASK to a worker whose (updated) observed epoch has exhausted the
budget `observed div num_classes ≥ max_iterations`; such a call returns
COMPLETE instead. -/
theorem max_iterations_complete {numV : Nat} {colorOf : Nat → Nat}
    {N k f : Nat} {s s' : State} {w : Nat} {t t' : Task} {st : Status}
    (HB : 2 * N + numV ≤ USIZE)
    (hs : Reachable numV colorOf N k f s)
    (hc : 1 ≤ s.color_blocks.length) (hw : w < N)
    (hstep : get_next_task s w t = some (st, s', t')) :
    s.max_iterations = k % USIZE ∧
    (st = Status.NEWTASK →
      s'.cpu_color w / s.color_blocks.length < s.max_iterations) ∧
    (s.max_iterations ≤ s'.cpu_color w / s.color_blocks.length →
      st = Status.COMPLETE) := by
  have hInv := Reachable_inv HB hs
  refine ⟨hInv.maxiter_eq, ?_⟩
  rcases get_next_task_cases hstep with ⟨_, hstC, rfl, _⟩ |
    ⟨_, hwt, _, hstW, rfl, _⟩ | ⟨_, hwt, hcol, hd⟩ | ⟨_, hwf, hd⟩
  · exact ⟨fun hN => absurd (hstC.symm.trans hN) (by decide),
      fun _ => hstC⟩
  · constructor
    · intro hN
      exact absurd (hstW.symm.trans hN) (by decide)
    · intro hge
      exact absurd hge (Nat.not_le.mpr (hInv.wait_budget w hw hwt))
  · obtain ⟨hlen, hcase⟩ := dispatchPhase_cases hd
    rcases hcase with ⟨hstC, rfl, _, hbud⟩ |
      ⟨hstN, rfl, hbudlt, _, _⟩ | ⟨hstW, _, hbudlt, _, htr⟩
    · exact ⟨fun hN => absurd (hstC.symm.trans hN) (by decide),
        fun _ => hstC⟩
    · constructor
      · intro _
        exact hbudlt
      · intro hge
        exact absurd hge (Nat.not_le.mpr hbudlt)
    · refine ⟨fun hN => absurd (hstW.symm.trans hN) (by decide), ?_⟩
      rcases htr with ⟨_, rfl⟩ | ⟨_, rfl⟩
      · intro hge
        exact absurd hge (Nat.not_le.mpr hbudlt)
      · intro hge
        exact absurd hge (Nat.not_le.mpr hbudlt)
  · obtain ⟨hlen, hcase⟩ := dispatchPhase_cases hd
    rcases hcase with ⟨hstC, rfl, _, hbud⟩ |
      ⟨hstN, rfl, hbudlt, _, _⟩ | ⟨hstW, _, hbudlt, _, htr⟩
    · exact ⟨fun hN => absurd (hstC.symm.trans hN) (by decide),
        fun _ => hstC⟩
    · constructor
      · intro _
        exact hbudlt
      · intro hge
        exact absurd hge (Nat.not_le.mpr hbudlt)
    · refine ⟨fun hN => absurd (hstW.symm.trans hN) (by decide), ?_⟩
      rcases htr with ⟨_, rfl⟩ | ⟨_, rfl⟩
      · intro hge
        exact absurd hge (Nat.not_le.mpr hbudlt)
      · intro hge
        exact absurd hge (Nat.not_le.mpr hbudlt)

/-- Witness for C7: two vertices of one class, one worker, budget 1 —
the first call is a NEW_TASK and its observed epoch is within budget. -/
theorem max_iterations_complete_witness :
    (strideWorker (startState 2 (fun _ => 0) 1 1 1) 0).cpu_color 0 /
        (startState 2 (fun _ => 0) 1 1 1).color_blocks.length <
      (startState 2 (fun _ => 0) 1 1 1).max_iterations :=
  (@max_iterations_complete 2 (fun _ => 0) 1 1 1
    (startState 2 (fun _ => 0) 1 1 1)
    (strideWorker (startState 2 (fun _ => 0) 1 1 1) 0) 0
    { vertex := 0, fn := 0 } { vertex := 1, fn := 1 } Status.NEWTASK
    (by norm_num [USIZE]) (ReachFrom.refl _) (by decide) (by norm_num)
    rfl).2.1 rfl

/-- A NEW_TASK result pins down the handed-out vertex: it sits at the
caller's cursor offset inside the current color block, and that offset is
congruent to the worker id modulo the worker count. -/
theorem newtask_characterization {numV : Nat} {colorOf : Nat → Nat}
    {N k : Nat} {s m : State} {w : Nat} {t t1 : Task}
    (HB : 2 * N + numV ≤ USIZE)
    (hInv : Inv numV colorOf N k s) (hw : w < N)
    (hstep : get_next_task s w t = some (Status.NEWTASK, m, t1)) :
    m.cpu_index w % N = w ∧
    m.cpu_index w <
      (s.color_blocks.getD (m.cpu_color w % s.color_blocks.length)
        []).length ∧
    t1.vertex = (s.color_blocks.getD
      (m.cpu_color w % s.color_blocks.length) []).getD
      (m.cpu_index w) 0 := by
  rcases get_next_task_cases hstep with ⟨_, hstC, _, _⟩ |
    ⟨_, _, _, hstW, _, _⟩ | ⟨_, hwt, hcol, hd⟩ | ⟨_, hwf, hd⟩
  · exact absurd hstC (by decide)
  · exact absurd hstW (by decide)
  · have hMid := MidInv_resetWorker hInv hw hcol
    obtain ⟨hlen, hcase⟩ := dispatchPhase_cases hd
    rcases hcase with ⟨hstC, _, _, _⟩ | ⟨_, rfl, hbudlt, hidx, ht1⟩ |
      ⟨hstW, _, _, _, _⟩
    · exact absurd hstC (by decide)
    · refine ⟨hMid.caller_cong hbudlt, hidx, ?_⟩
      rw [ht1]
      rfl
    · exact absurd hstW (by decide)
  · have hMid := MidInv_strideWorker HB hInv hw hwf
    obtain ⟨hlen, hcase⟩ := dispatchPhase_cases hd
    rcases hcase with ⟨hstC, _, _, _⟩ | ⟨_, rfl, hbudlt, hidx, ht1⟩ |
      ⟨hstW, _, _, _, _⟩
    · exact absurd hstC (by decide)
    · refine ⟨hMid.caller_cong hbudlt, hidx, ?_⟩
      rw [ht1]
      rfl
    · exact absurd hstW (by decide)

/-- C5: in every reachable state, a cursor still scanning a color class
(parked or active within the iteration budget) holds an offset congruent
to its worker id modulo the worker count; distinct workers therefore hold
distinct offsets, and two NEW_TASK results for distinct workers observing
the same epoch always carry distinct vertices. -/
theorem round_robin_disjoint {numV : Nat} {colorOf : Nat → Nat}
    {N k f : Nat} {s : State} {w w2 : Nat}
    (HB : 2 * N + numV ≤ USIZE)
    (hs : Reachable numV colorOf N k f s)
    (hw : w < N) (hw2 : w2 < N) (hne : w ≠ w2) :
    ((s.cpu_waiting w = true ∨
        s.cpu_color w / s.color_blocks.length < s.max_iterations) →
      s.cpu_index w % N = w) ∧
    ((s.cpu_waiting w = true ∨
        s.cpu_color w / s.color_blocks.length < s.max_iterations) →
      (s.cpu_waiting w2 = true ∨
        s.cpu_color w2 / s.color_blocks.length < s.max_iterations) →
      s.cpu_index w ≠ s.cpu_index w2) ∧
    (∀ (t u : Task) (s1 s2 : State) (t1 t2 : Task),
      get_next_task s w t = some (Status.NEWTASK, s1, t1) →
      get_next_task s w2 u = some (Status.NEWTASK, s2, t2) →
      s1.cpu_color w = s2.cpu_color w2 → t1.vertex ≠ t2.vertex) := by
  have hInv := Reachable_inv HB hs
  have cong : ∀ x, x < N →
      (s.cpu_waiting x = true ∨
        s.cpu_color x / s.color_blocks.length < s.max_iterations) →
      s.cpu_index x % N = x := by
    intro x hx hyp
    cases hcw : s.cpu_waiting x with
    | true => exact hInv.idx_cong_wait x hx hcw
    | false =>
      rcases hyp with ht | hlt
      · rw [hcw] at ht
        exact absurd ht (by simp)
      · exact (hInv.idx_cong_active x hx hcw hlt).1
  refine ⟨cong w hw, ?_, ?_⟩
  · intro h1 h2 heq
    exact hne (by rw [← cong w hw h1, heq, cong w2 hw2 h2])
  · intro t u s1 s2 t1 t2 h1 h2 hcc hveq
    obtain ⟨hcong1, hidx1, hv1⟩ := newtask_characterization HB hInv hw h1
    obtain ⟨hcong2, hidx2, hv2⟩ := newtask_characterization HB hInv hw2 h2
    rw [hcc] at hidx1 hv1
    have hnd : (s.color_blocks.getD
        (s2.cpu_color w2 % s.color_blocks.length) []).Nodup := by
      rw [hInv.blocks_eq]
      exact build_color_blocks_getD_nodup numV colorOf _
    have hgd : (s.color_blocks.getD
          (s2.cpu_color w2 % s.color_blocks.length) []).getD
          (s1.cpu_index w) 0 =
        (s.color_blocks.getD
          (s2.cpu_color w2 % s.color_blocks.length) []).getD
          (s2.cpu_index w2) 0 := by
      rw [← hv1, ← hv2, hveq]
    rw [List.getD_eq_getElem _ _ hidx1, List.getD_eq_getElem _ _ hidx2]
      at hgd
    have hij := (List.Nodup.getElem_inj_iff hnd).mp hgd
    exact hne (by rw [← hcong1, hij, hcong2])

/-- Witness for C5: right after `start()` with 2 workers on one class of
2 vertices, both cursors are scanning, congruent to their ids, and
distinct. -/
theorem round_robin_disjoint_witness :
    (startState 2 (fun _ => 0) 2 1 1).cpu_index 0 % 2 = 0 ∧
    (startState 2 (fun _ => 0) 2 1 1).cpu_index 0 ≠
      (startState 2 (fun _ => 0) 2 1 1).cpu_index 1 := by
  have h := @round_robin_disjoint 2 (fun _ => 0) 2 1 1
    (startState 2 (fun _ => 0) 2 1 1) 0 1
    (by norm_num [USIZE]) (ReachFrom.refl _) (by norm_num) (by norm_num)
    (by norm_num)
  exact ⟨h.1 (Or.inr (by decide)), h.2.1 (Or.inr (by decide))
    (Or.inr (by decide))⟩

end GraphLab
